import Mathlib

/-!
Verification of the `ai-T` desktop translation client.

This file shallowly embeds the core of the repository in Lean 4:

* `src/api/client.rs`   : the SSE stream parsing loop of `ApiClient::stream_chat`
* `src/api/translator.rs`: `parse_translation_and_keywords`, the cache-hit path of
  `Translator::translate`, and the spawned accumulate-and-cache task
* `src/utils/cache.rs`  : `TranslationCache` (`get`/`set` with batched eviction)
* `src/services/audio/mod.rs`: `AudioCache::set` together with its locking
  behaviour (modelled explicitly because `cleanup_oldest_entries` calls
  `save_cache_index`, which re-acquires the mutex already held by `set`)
* `src/ui/app.rs`       : the UI forwarding loop spawned by `start_translation`

Rust `HashMap`s are modelled as association lists whose list order stands for
the (arbitrary but fixed) iteration order of the map; `HashMap::insert` of a
fresh key appends, an existing key is overwritten in place.  Byte buffers and
`&str` values are modelled as `List Char`.  External JSON decoding
(`serde_json::from_str::<StreamChunk>`) is an explicit function parameter
`parse`: the embedding is faithful for every decoder, and concrete theorems
instantiate it with a test decoder.  Fallible operations (a Rust panic, or a
deadlocking double lock) are modelled by `Option`, `none` meaning the call
never returns normally.
-/

/-! ### Characters, Rust `str::lines`, `str::trim` -/

/-- Rust `lines` strips one trailing carriage return from a line that was
terminated by a newline. -/
def stripCR (l : List Char) : List Char :=
  if l.getLast? = some '\r' then l.dropLast else l

/-- Worker for `rustLines`: `acc` holds the current (reversed) partial line. -/
def rustLinesAux : List Char → List Char → List (List Char)
  | acc, [] => if acc = [] then [] else [acc.reverse]
  | acc, c :: rest =>
    if c = '\n' then stripCR acc.reverse :: rustLinesAux [] rest
    else rustLinesAux (c :: acc) rest

/-- Rust `str::lines`: split at newlines, supporting `\r\n`; a final line
without a terminating newline is still produced, a terminating newline does
not produce a trailing empty line. -/
def rustLines (s : List Char) : List (List Char) :=
  rustLinesAux [] s

/-- Rust `str::trim`: remove whitespace from both ends. -/
def trimChars (cs : List Char) : List Char :=
  ((cs.dropWhile Char.isWhitespace).reverse.dropWhile Char.isWhitespace).reverse

/-! ### Wire data model (`src/api/client.rs`) -/

/-- `Delta` from `client.rs`: the incremental payload of one stream choice. -/
structure Delta where
  role : Option String
  content : Option String
deriving DecidableEq

/-- `StreamChoice` from `client.rs`. -/
structure StreamChoice where
  index : Nat
  delta : Delta
  finish_reason : Option String
deriving DecidableEq

/-- `StreamChunk` from `client.rs`: one decoded SSE JSON frame.  The fields
`id`, `object`, `created`, `model` are dead in the stream loop and omitted. -/
structure StreamChunk where
  choices : List StreamChoice
deriving DecidableEq

/-- The error enum of `src/error.rs`, restricted to the variants the stream
loop can emit. -/
inductive TranslationError where
  | apiError (msg : String)
  | networkError (msg : String)
  | streamError (msg : String)
deriving DecidableEq

/-- The `data: ` prefix stripped by `line.strip_prefix("data: ")`. -/
def stripData : List Char → Option (List Char)
  | 'd' :: 'a' :: 't' :: 'a' :: ':' :: ' ' :: rest => some rest
  | _ => none

/-- The `[DONE]` sentinel compared against the trimmed payload. -/
def doneChars : List Char := ['[', 'D', 'O', 'N', 'E', ']']

/-- What the stream loop does with one complete `data: ` line. -/
inductive LineAction where
  | skip
  | emit (content : String)
  | done
deriving DecidableEq

namespace ApiClient

/-- Handling of a single line in the loop body of `stream_chat`
(`client.rs` lines 163-183): strip the `data: ` prefix; a trimmed `[DONE]`
payload terminates the stream; otherwise decode the payload and emit the
first choice delta content when present; decoding failures are skipped. -/
def lineAction (parse : List Char → Option StreamChunk) (line : List Char) :
    LineAction :=
  match stripData line with
  | none => .skip
  | some json_str =>
    if trimChars json_str = doneChars then .done
    else
      match parse json_str with
      | some chunk =>
        match chunk.choices.head? with
        | some choice =>
          match choice.delta.content with
          | some c => .emit c
          | none => .skip
        | none => .skip
      | none => .skip

/-- The `for (i, line) in lines.iter().enumerate()` loop of `stream_chat`
(`client.rs` lines 158-184).  The final line is skipped when it does not start
with `data: ` (the possibly-incomplete trailing line check
`i == lines.len() - 1 && !line.starts_with("data: ")`).  Returns the emitted
contents and whether `[DONE]` was reached (which returns from the task after
sending one empty string). -/
def runLines (parse : List Char → Option StreamChunk) :
    List (List Char) → List String × Bool
  | [] => ([], false)
  | [line] =>
    if (stripData line).isNone then ([], false)
    else
      match lineAction parse line with
      | .done => ([""], true)
      | .emit c => ([c], false)
      | .skip => ([], false)
  | line :: rest =>
    match lineAction parse line with
    | .done => ([""], true)
    | .emit c =>
      match runLines parse rest with
      | (outs, d) => (c :: outs, d)
    | .skip => runLines parse rest

/-- The `while let Some(chunk_result) = stream.next().await` loop of
`stream_chat` (`client.rs` lines 150-196).  `events` is the sequence of
network read events (`Ok` body fragment or transport error), `buffer` the byte
accumulation buffer.  Each successful read extends the buffer, processes its
lines, and then clears the buffer (`buffer.clear()`, line 186); a transport
error emits one `StreamError` and stops; a naturally ended stream emits one
terminal empty string. -/
def stream_loop (parse : List Char → Option StreamChunk) :
    List (Except String (List Char)) → List Char →
      List (Except TranslationError String)
  | [], _buffer => [Except.ok ""]
  | Except.error e :: _, _buffer =>
    [Except.error (TranslationError.streamError e)]
  | Except.ok chunk :: rest, buffer =>
    let data := buffer ++ chunk
    let lines := rustLines data
    match runLines parse lines with
    | (outs, done) =>
      if done then outs.map Except.ok
      else outs.map Except.ok ++ stream_loop parse rest []

/-- The channel contents produced by `ApiClient::stream_chat` after a
successful HTTP response, as a function of the network read events. -/
def stream_chat (parse : List Char → Option StreamChunk)
    (events : List (Except String (List Char))) :
    List (Except TranslationError String) :=
  stream_loop parse events []

end ApiClient

/-! ### Substring search (Rust `str::contains` / `str::find`) -/

/-- Whether `needle` occurs at the head of `hay`. -/
def startsList : List Char → List Char → Bool
  | [], _ => true
  | _ :: _, [] => false
  | n :: ns, h :: hs => n == h && startsList ns hs

/-- Rust `str::find(needle)`: index of the first occurrence. -/
def findSub (needle : List Char) : List Char → Option Nat
  | [] => if needle = [] then some 0 else none
  | h :: hs =>
    if startsList needle (h :: hs) then some 0
    else (findSub needle hs).map (· + 1)

/-- Rust `str::contains(needle)`. -/
def containsSub (hay needle : List Char) : Bool :=
  (findSub needle hay).isSome

/-- The `[Translation]` section marker of `translator.rs`. -/
def transMarker : List Char := "[Translation]".data

/-- The `[Terminology]` section marker of `translator.rs`. -/
def termMarker : List Char := "[Terminology]".data

/-- `parse_translation_and_keywords` (`translator.rs` lines 12-42).

The Rust function slices
`response[translation_start + "[Translation]".len()..terminology_start]`;
when `terminology_start` is smaller than the start of that range this slice
panics, which the embedding models as `none`.  All normally returning paths
yield `some`. -/
def parse_translation_and_keywords (response : List Char)
    (enable_keyword_analysis : Bool) :
    Option (List Char × Option (List Char)) :=
  if !enable_keyword_analysis then some (response, none)
  else if containsSub response transMarker && containsSub response termMarker then
    match findSub transMarker response with
    | some translation_start =>
      match findSub termMarker response with
      | some terminology_start =>
        if translation_start + transMarker.length ≤ terminology_start then
          let translation :=
            trimChars ((response.drop (translation_start + transMarker.length)).take
              (terminology_start - (translation_start + transMarker.length)))
          let terminology := trimChars (response.drop (terminology_start + termMarker.length))
          if terminology = [] then some (translation, none)
          else some (translation, some terminology)
        else none
      | none => some (response, none)
    | none => some (response, none)
  else some (response, none)

/-! ### Translation cache (`src/utils/cache.rs`) -/

/-- `CacheEntry` from `cache.rs`. -/
structure CacheEntry where
  translation : String
  keyword_analysis : Option String
  timestamp : Int
deriving DecidableEq

/-- Association-list model of `HashMap`: state of a `TranslationCache`. -/
abbrev TransState := List (String × CacheEntry)

/-- `HashMap::insert`: overwrite in place if the key is present, otherwise
append. -/
def mapInsert {α : Type} : List (String × α) → String → α → List (String × α)
  | [], k, v => [(k, v)]
  | (k', v') :: t, k, v =>
    if k' = k then (k, v) :: t else (k', v') :: mapInsert t k v

/-- `HashMap::get`. -/
def mapGet {α : Type} : List (String × α) → String → Option α
  | [], _ => none
  | (k', v) :: t, k => if k' = k then some v else mapGet t k

/-- `HashMap::remove`. -/
def mapRemove {α : Type} : List (String × α) → String → List (String × α)
  | [], _ => []
  | (k', v) :: t, k => if k' = k then t else (k', v) :: mapRemove t k

namespace TranslationCache

/-- `MAX_CACHE_SIZE` from `TranslationCache::set`. -/
def maxCacheSize : Nat := 1000

/-- `CLEANUP_SIZE` from `TranslationCache::set`. -/
def cleanupSize : Nat := 100

/-- `TranslationCache::generate_key`:
`format!("{}::{}::{}", target_language, enable_keyword_analysis, source_text)`. -/
def generate_key (source_text target_language : String)
    (enable_keyword_analysis : Bool) : String :=
  target_language ++ "::" ++ (if enable_keyword_analysis then "true" else "false")
    ++ "::" ++ source_text

/-- `TranslationCache::get` (`cache.rs` lines 78-100). -/
def get (st : TransState) (source_text target_language : String)
    (enable_keyword_analysis : Bool) : Option (String × Option String) :=
  match mapGet st (generate_key source_text target_language enable_keyword_analysis) with
  | some entry => some (entry.translation, entry.keyword_analysis)
  | none => none

/-- Comparator used by `entries.sort_by(|a, b| a.1.cmp(&b.1))`: order by
timestamp.  Rust `sort_by` is stable, as is `List.insertionSort`, so the
sorted list agrees with the Rust one given the modelled iteration order. -/
def tsLe (a b : String × CacheEntry) : Prop :=
  a.2.timestamp ≤ b.2.timestamp

instance : DecidableRel tsLe := fun a b => Int.decLe a.2.timestamp b.2.timestamp

instance : IsTotal (String × CacheEntry) tsLe :=
  ⟨fun a b => Int.le_total a.2.timestamp b.2.timestamp⟩

instance : IsTrans (String × CacheEntry) tsLe :=
  ⟨fun _ _ _ hab hbc => le_trans hab hbc⟩

/-- `TranslationCache::set` (`cache.rs` lines 111-168).  `now` stands for
`chrono::Utc::now().timestamp()`.  After inserting, when the map holds more
than `MAX_CACHE_SIZE` entries, the entries are sorted by timestamp (oldest
first) and the first `CLEANUP_SIZE` keys are removed.  The best-effort
`save_to_file` runs after the lock is released and does not affect the map. -/
def set (st : TransState) (source_text target_language : String)
    (enable_keyword_analysis : Bool) (translation : String)
    (keyword_analysis : Option String) (now : Int) : TransState :=
  let key := generate_key source_text target_language enable_keyword_analysis
  let entry : CacheEntry :=
    { translation := translation, keyword_analysis := keyword_analysis, timestamp := now }
  let cache := mapInsert st key entry
  if cache.length > maxCacheSize then
    let entries := List.insertionSort tsLe cache
    let toRemove := (entries.take cleanupSize).map Prod.fst
    toRemove.foldl (fun acc k => mapRemove acc k) cache
  else cache

end TranslationCache

/-! ### Audio cache (`src/services/audio/mod.rs`)

`AudioCache` guards its map with one `std::sync::Mutex`.  Acquiring that
mutex while the same thread already holds it never returns (a classic
self-deadlock), so the functions below take the lock state explicitly and
return `none` for an execution that never returns normally.  File-system
effects (deleting evicted audio files, writing the index) do not feed back
into the map and are not tracked beyond the `audio_path.exists()` test at the
top of `set`, which consults the ambient set `files` of existing paths. -/

/-- `AudioCacheEntry` from `audio/mod.rs`. -/
structure AudioCacheEntry where
  audio_path : String
  timestamp : Int
deriving DecidableEq

/-- Association-list model of the audio cache map. -/
abbrev AudioState := List (String × AudioCacheEntry)

namespace AudioCache

/-- `max_entries`, set to 100 in `AudioCache::new`. -/
def maxEntries : Nat := 100

/-- `CLEANUP_SIZE` from `AudioCache::cleanup_oldest_entries`. -/
def cleanupSize : Nat := 20

/-- Timestamp order used by `entries.sort_by(|a, b| a.1.cmp(&b.1))`. -/
def tsLe (a b : String × AudioCacheEntry) : Prop :=
  a.2.timestamp ≤ b.2.timestamp

instance : DecidableRel tsLe := fun a b => Int.decLe a.2.timestamp b.2.timestamp

/-- `AudioCache::save_cache_index` (`audio/mod.rs` lines 230-258) begins with
`lock_mutex!(self.cache)`.  When the calling thread already holds the lock
this never returns; otherwise the index write is a best-effort file-system
effect with no influence on the map. -/
def save_cache_index (lockHeld : Bool) : Option Unit :=
  if lockHeld then none else some ()

/-- `AudioCache::cleanup_oldest_entries` (`audio/mod.rs` lines 261-293),
invoked by `set` with the cache mutex held: sorts the entries by timestamp,
removes the oldest `CLEANUP_SIZE` (deleting their files), and then calls
`save_cache_index` — which re-locks the already-held mutex. -/
def cleanup_oldest_entries (cache : AudioState) : Option AudioState :=
  let entries := List.insertionSort tsLe cache
  let toRemove := (entries.take cleanupSize).map Prod.fst
  let cache' := toRemove.foldl (fun acc k => mapRemove acc k) cache
  match save_cache_index true with
  | some _ => some cache'
  | none => none

/-- `AudioCache::set` (`audio/mod.rs` lines 113-148).  `hash` stands for
`generate_key` (a `DefaultHasher` digest of the text), `files` for the set of
paths that exist on disk, `now` for `Utc::now().timestamp()`.  A missing
audio file returns early without touching the map.  After the insert, when
the map exceeds `max_entries`, `cleanup_oldest_entries` runs while the lock
is held; its inner `save_cache_index` re-locks the mutex, so that path never
returns.  On the normal path the lock is released and `save_cache_index`
runs unlocked. -/
def set (hash : String → String) (files : List String) (st : AudioState)
    (text audio_path : String) (now : Int) : Option AudioState :=
  if audio_path ∉ files then some st
  else
    let key := hash text
    let entry : AudioCacheEntry := { audio_path := audio_path, timestamp := now }
    let cache := mapInsert st key entry
    match (if cache.length > maxEntries then cleanup_oldest_entries cache else some cache) with
    | none => none
    | some cache' =>
      match save_cache_index false with
      | some _ => some cache'
      | none => none

end AudioCache

/-! ### Translator (`src/api/translator.rs`) -/

/-- What `Translator::translate` does before returning its receiver:
either it serves the request synchronously from the cache, or it goes live
(building the prompt messages and spawning the streaming task,
`translator.rs` lines 108-248). -/
inductive TranslateAction where
  | cached (outs : List String)
  | live
deriving DecidableEq

namespace Translator

/-- The cache check of `Translator::translate` (`translator.rs` lines
92-106): on a hit the cached translation, then the cached keyword analysis
when present, then one terminal empty string are sent on the channel and the
function returns without any network request. -/
def translate_action (st : TransState) (text target_language : String)
    (enable_keyword_analysis : Bool) : TranslateAction :=
  match TranslationCache.get st text target_language enable_keyword_analysis with
  | some (cached_translation, cached_keyword_analysis) =>
    .cached
      ([cached_translation] ++
        (match cached_keyword_analysis with
         | some keyword_analysis => [keyword_analysis]
         | none => []) ++ [""])
  | none => .live

/-- The `full_response` accumulator of the task spawned by
`Translator::translate` (`translator.rs` lines 220-230): every `Ok` chunk
that is non-empty is appended. -/
def full_response (events : List (Except TranslationError String)) : String :=
  events.foldl
    (fun acc r =>
      match r with
      | Except.ok chunk => if chunk ≠ "" then acc ++ chunk else acc
      | Except.error _ => acc)
    ""

/-- The task spawned by `Translator::translate` (`translator.rs` lines
218-248).  It forwards every stream result to the caller channel (send
failures are ignored), and after the stream closes it parses the non-empty
accumulated response and stores it in the cache.  The task never reads the
UI cancel flag.  A panic inside `parse_translation_and_keywords` kills the
task before the cache write, leaving the cache unchanged.  Returns the
forwarded messages and the cache state after the task finishes. -/
def translator_task (events : List (Except TranslationError String))
    (st : TransState) (text target_language : String)
    (enable_keyword_analysis : Bool) (now : Int) :
    List (Except TranslationError String) × TransState :=
  let full := full_response events
  let st' :=
    if full ≠ "" then
      match parse_translation_and_keywords full.data enable_keyword_analysis with
      | some (translation, keyword_analysis) =>
        TranslationCache.set st text target_language enable_keyword_analysis
          (String.mk translation) (keyword_analysis.map String.mk) now
      | none => st
    else st
  (events, st')

end Translator

/-! ### UI forwarding loop (`src/ui/app.rs`) -/

/-- The subset of `UiMessage` (`src/channel/channel.rs`) sent by the
translation loop of `start_translation`. -/
inductive UiMessage where
  | updateTranslation (chunk : String)
  | translationComplete
  | translationCancelled
  | error (e : TranslationError)
deriving DecidableEq

namespace TranslateApp

/-- The `tokio::select!` loop spawned by `start_translation` (`app.rs` lines
174-207).  `flag` is the shared `cancel_requested` value (set by
`cancel_translation` before the run in the executions modelled here) and
`sched i` tells whether, at iteration `i`, the select picks the
cancellation-timer branch over the channel branch; the branch is only
enabled while the flag is set.  An empty chunk reports completion, an error
is forwarded once, a closed channel ends the loop silently. -/
def ui_loop (flag : Bool) (sched : Nat → Bool) :
    Nat → List (Except TranslationError String) → List UiMessage
  | i, msgs =>
    if flag ∧ sched i then [UiMessage.translationCancelled]
    else
      match msgs with
      | [] => []
      | Except.ok chunk :: rest =>
        if chunk = "" then [UiMessage.translationComplete]
        else UiMessage.updateTranslation chunk :: ui_loop flag sched (i + 1) rest
      | Except.error e :: _ => [UiMessage.error e]

end TranslateApp

/-! ### Synthetic inputs and helper definitions for the theorems -/

deriving instance DecidableEq for Except

/-- The characters of the `data: ` line head, as matched by `stripData`. -/
def dataTag : List Char := ['d', 'a', 't', 'a', ':', ' ']

/-- A read event consisting of the given complete SSE frames, each payload on
its own newline-terminated `data: ` line. -/
def encodeEvent (ps : List (List Char)) : List Char :=
  (ps.map (fun p => dataTag ++ p ++ ['\n'])).flatten

/-- The terminating read event: one complete `data: [DONE]` line. -/
def doneEvent : List Char := dataTag ++ doneChars ++ ['\n']

/-- The contents the stream loop emits for one decoded payload: the first
choice delta content if the payload decodes and carries one, else nothing. -/
def payloadEmits (parse : List Char → Option StreamChunk) (p : List Char) :
    List String :=
  match parse p with
  | some chunk =>
    match chunk.choices.head? with
    | some choice =>
      match choice.delta.content with
      | some c => [c]
      | none => []
    | none => []
  | none => []

/-- A concrete stand-in for `serde_json::from_str::<StreamChunk>`, decoding
the two test payloads `p1` and `p2` and rejecting everything else. -/
def testParse : List Char → Option StreamChunk := fun p =>
  if p = "p1".data then some ⟨[⟨0, ⟨none, some "A"⟩, none⟩]⟩
  else if p = "p2".data then some ⟨[⟨0, ⟨none, some "B"⟩, none⟩]⟩
  else none

/-- Distinct audio-cache keys for the concrete states below. -/
def akey (i : Nat) : String := String.mk ('k' :: List.replicate i 'a')

/-- An audio cache holding exactly `max_entries` = 100 entries. -/
def audioFullState : AudioState :=
  (List.range 100).map (fun i => (akey i, ⟨"path", (i : Int)⟩))

/-- An audio cache holding 99 entries, one below the bound. -/
def audioState99 : AudioState :=
  (List.range 99).map (fun i => (akey i, ⟨"path", (i : Int)⟩))

/-- An audio cache holding 120 entries (over the bound, as a state loaded
from a large on-disk index). -/
def audioState120 : AudioState :=
  (List.range 120).map (fun i => (akey i, ⟨"path", (i : Int)⟩))

/-- Distinct translation-cache keys for the concrete over-full state. -/
def tkey (i : Nat) : String := String.mk ('k' :: List.replicate i 'a')

/-- A translation cache holding exactly `MAX_CACHE_SIZE` = 1000 entries, all
with timestamp 1 (for example re-loaded from disk after a clock step). -/
def transFullState : TransState :=
  (List.range 1000).map (fun i => (tkey i, ⟨"t", none, 1⟩))

/-! ### Association-list lemmas -/

theorem mapInsert_length_le {α : Type} (l : List (String × α)) (k : String) (v : α) :
    (mapInsert l k v).length ≤ l.length + 1 := by
  induction l with
  | nil => simp [mapInsert]
  | cons kv t ih =>
    obtain ⟨k', v'⟩ := kv
    by_cases h : k' = k
    · simp [mapInsert, h]
    · simp [mapInsert, h]
      omega

theorem mapGet_mapInsert_self {α : Type} (l : List (String × α)) (k : String) (v : α) :
    mapGet (mapInsert l k v) k = some v := by
  induction l with
  | nil => simp [mapInsert, mapGet]
  | cons kv t ih =>
    obtain ⟨k', v'⟩ := kv
    by_cases h : k' = k <;> simp [mapInsert, h, mapGet, ih]

theorem mapInsert_of_forall_ne {α : Type} {l : List (String × α)} {k : String} (v : α)
    (h : ∀ kv ∈ l, kv.1 ≠ k) : mapInsert l k v = l ++ [(k, v)] := by
  induction l with
  | nil => simp [mapInsert]
  | cons kv t ih =>
    obtain ⟨k', v'⟩ := kv
    have hk : k' ≠ k := h (k', v') (by simp)
    simp only [mapInsert, if_neg hk, List.cons_append, List.cons.injEq, true_and]
    exact ih (fun kv hkv => h kv (by simp [hkv]))

theorem mapGet_eq_none {α : Type} {l : List (String × α)} {k : String}
    (h : ∀ kv ∈ l, kv.1 ≠ k) : mapGet l k = none := by
  induction l with
  | nil => rfl
  | cons kv t ih =>
    obtain ⟨k', v'⟩ := kv
    have hk : k' ≠ k := h (k', v') (by simp)
    simp only [mapGet, if_neg hk]
    exact ih (fun kv hkv => h kv (by simp [hkv]))

theorem mapGet_mapRemove_none {α : Type} {l : List (String × α)} {k : String}
    (k' : String) (h : mapGet l k = none) : mapGet (mapRemove l k') k = none := by
  induction l with
  | nil => rfl
  | cons kv t ih =>
    obtain ⟨ka, va⟩ := kv
    by_cases hk : ka = k
    · simp [mapGet, hk] at h
    · simp only [mapGet, if_neg hk] at h
      by_cases hk' : ka = k'
      · simpa [mapRemove, hk'] using h
      · simp [mapRemove, hk', mapGet, if_neg hk, ih h]

theorem foldl_mapRemove_none {α : Type} (ks : List String) {l : List (String × α)}
    {k : String} (h : mapGet l k = none) :
    mapGet (ks.foldl (fun acc k' => mapRemove acc k') l) k = none := by
  induction ks generalizing l with
  | nil => simpa using h
  | cons k' ks ih => exact ih (mapGet_mapRemove_none k' h)

theorem mapRemove_append_of_forall_ne {α : Type} {l : List (String × α)} {k : String}
    (v : α) (h : ∀ kv ∈ l, kv.1 ≠ k) : mapRemove (l ++ [(k, v)]) k = l := by
  induction l with
  | nil => simp [mapRemove]
  | cons kv t ih =>
    obtain ⟨k', v'⟩ := kv
    have hk : k' ≠ k := h (k', v') (by simp)
    simp only [List.cons_append, mapRemove, if_neg hk, List.cons.injEq, true_and]
    exact ih (fun kv hkv => h kv (by simp [hkv]))

theorem mapRemove_length_le {α : Type} (l : List (String × α)) (k : String) :
    (mapRemove l k).length ≤ l.length := by
  induction l with
  | nil => simp [mapRemove]
  | cons kv t ih =>
    obtain ⟨k', v'⟩ := kv
    by_cases h : k' = k
    · simp [mapRemove, h]
    · simp [mapRemove, h]
      omega

theorem mapRemove_length_of_mem {α : Type} {l : List (String × α)} {k : String}
    (h : k ∈ l.map Prod.fst) : (mapRemove l k).length + 1 = l.length := by
  induction l with
  | nil => simp at h
  | cons kv t ih =>
    obtain ⟨k', v'⟩ := kv
    by_cases hk : k' = k
    · simp [mapRemove, hk]
    · have ht : k ∈ t.map Prod.fst := by
        rcases List.mem_map.mp h with ⟨kv, hkv, hfst⟩
        rcases List.mem_cons.mp hkv with h1 | h1
        · exact absurd (by rw [h1] at hfst; exact hfst) hk
        · exact List.mem_map.mpr ⟨kv, h1, hfst⟩
      have := ih ht
      simp only [mapRemove, if_neg hk, List.length_cons]
      omega

theorem foldl_mapRemove_length_le {α : Type} (ks : List String) (l : List (String × α)) :
    (ks.foldl (fun acc k' => mapRemove acc k') l).length ≤ l.length := by
  induction ks generalizing l with
  | nil => simp
  | cons k' ks ih =>
    calc (ks.foldl (fun acc k' => mapRemove acc k') (mapRemove l k')).length
        ≤ (mapRemove l k').length := ih _
      _ ≤ l.length := mapRemove_length_le l k'

theorem mem_mapInsert {α : Type} {l : List (String × α)} {k : String} {v : α}
    {kv : String × α} (h : kv ∈ mapInsert l k v) : kv = (k, v) ∨ kv ∈ l := by
  induction l with
  | nil => simpa [mapInsert] using h
  | cons kv' t ih =>
    obtain ⟨k', v'⟩ := kv'
    by_cases hk : k' = k
    · simp only [mapInsert, if_pos hk] at h
      rcases List.mem_cons.mp h with h1 | h1
      · exact Or.inl h1
      · exact Or.inr (by simp [h1])
    · simp only [mapInsert, if_neg hk] at h
      rcases List.mem_cons.mp h with h1 | h1
      · exact Or.inr (by simp [h1])
      · rcases ih h1 with h2 | h2
        · exact Or.inl h2
        · exact Or.inr (by simp [h2])

theorem mapGet_some_mem {α : Type} {l : List (String × α)} {k : String} {v : α}
    (h : mapGet l k = some v) : (k, v) ∈ l := by
  induction l with
  | nil => simp [mapGet] at h
  | cons kv t ih =>
    obtain ⟨k', v'⟩ := kv
    by_cases hk : k' = k
    · simp only [mapGet, if_pos hk] at h
      subst hk
      simp [← Option.some.inj h]
    · simp only [mapGet, if_neg hk] at h
      exact List.mem_cons.mpr (Or.inr (ih h))

theorem mapInsert_nodup_keys {α : Type} {l : List (String × α)} (k : String) (v : α)
    (h : (l.map Prod.fst).Nodup) : ((mapInsert l k v).map Prod.fst).Nodup := by
  induction l with
  | nil => simp [mapInsert]
  | cons kv t ih =>
    obtain ⟨k', v'⟩ := kv
    simp only [List.map_cons, List.nodup_cons] at h
    by_cases hk : k' = k
    · subst hk
      simpa [mapInsert] using h
    · simp only [mapInsert, if_neg hk, List.map_cons, List.nodup_cons]
      refine ⟨fun hmem => ?_, ih h.2⟩
      rcases List.mem_map.mp hmem with ⟨q, hq, hfst⟩
      rcases mem_mapInsert hq with h1 | h1
      · exact hk (by rw [h1] at hfst; exact hfst.symm)
      · exact h.1 (List.mem_map.mpr ⟨q, h1, hfst⟩)

theorem mapGet_mapRemove_other {α : Type} {l : List (String × α)} {k k' : String}
    (h : k' ≠ k) : mapGet (mapRemove l k') k = mapGet l k := by
  induction l with
  | nil => rfl
  | cons kv t ih =>
    obtain ⟨ka, va⟩ := kv
    by_cases hk' : ka = k'
    · have hka : ka ≠ k := by rw [hk']; exact h
      simp [mapRemove, hk', mapGet, hka, h]
    · by_cases hk : ka = k
      · subst hk
        simp [mapRemove, hk', mapGet, fun hh : ka = k' => hk' hh]
      · simp [mapRemove, hk', mapGet, hk, ih]

theorem foldl_mapRemove_get_of_not_mem {α : Type} (ks : List String)
    {l : List (String × α)} {k : String} (h : ∀ k' ∈ ks, k' ≠ k) :
    mapGet (ks.foldl (fun acc k' => mapRemove acc k') l) k = mapGet l k := by
  induction ks generalizing l with
  | nil => rfl
  | cons k' ks ih =>
    have h1 : k' ≠ k := h k' (by simp)
    calc mapGet ((k' :: ks).foldl (fun acc k' => mapRemove acc k') l) k
        = mapGet (mapRemove l k') k := ih (fun q hq => h q (by simp [hq]))
      _ = mapGet l k := mapGet_mapRemove_other h1

theorem nodup_keys_unique {α : Type} {l : List (String × α)} {k : String} {v w : α}
    (h : (l.map Prod.fst).Nodup) (hv : (k, v) ∈ l) (hw : (k, w) ∈ l) : v = w := by
  induction l with
  | nil => simp at hv
  | cons kv t ih =>
    obtain ⟨k', v'⟩ := kv
    simp only [List.map_cons, List.nodup_cons] at h
    rcases List.mem_cons.mp hv with h1 | h1 <;> rcases List.mem_cons.mp hw with h2 | h2
    · rw [Prod.mk.injEq] at h1 h2
      rw [h1.2, h2.2]
    · rw [Prod.mk.injEq] at h1
      exact absurd (List.mem_map.mpr ⟨(k, w), h2, h1.1⟩) h.1
    · rw [Prod.mk.injEq] at h2
      exact absurd (List.mem_map.mpr ⟨(k, v), h1, h2.1⟩) h.1
    · exact ih h.2 h1 h2

/-! ### Round trips and size bounds of `TranslationCache` -/

/-- A `set` that cannot overflow the bound is a plain insert, so the entry is
immediately readable back. -/
theorem trans_get_set_small (st : TransState) (text lang : String) (enable : Bool)
    (t : String) (ka : Option String) (now : Int)
    (h : st.length < TranslationCache.maxCacheSize) :
    TranslationCache.get (TranslationCache.set st text lang enable t ka now)
      text lang enable = some (t, ka) := by
  unfold TranslationCache.set TranslationCache.get
  have hle := mapInsert_length_le st (TranslationCache.generate_key text lang enable)
    ⟨t, ka, now⟩
  rw [if_neg (by omega)]
  rw [mapGet_mapInsert_self]

/-- C5: on a cache hit, `Translator::translate` enqueues the cached
translation, then the cached terminology when present, then one terminal
empty string, and takes the `cached` action (returning its channel without
any network request). -/
theorem c5_cache_hit_emits (st : TransState) (text target_language : String)
    (enable_keyword_analysis : Bool) (t : String) (ka : Option String)
    (h : TranslationCache.get st text target_language enable_keyword_analysis
          = some (t, ka)) :
    Translator.translate_action st text target_language enable_keyword_analysis =
      TranslateAction.cached ([t] ++ ka.toList ++ [""]) := by
  unfold Translator.translate_action
  rw [h]
  cases ka <;> rfl

/-- Witness for C5 at a concrete one-entry cache. -/
theorem c5_witness :
    Translator.translate_action [("L::false::hello", ⟨"nihao", none, 3⟩)] "hello" "L" false
      = TranslateAction.cached ["nihao", ""] :=
  c5_cache_hit_emits _ "hello" "L" false "nihao" none (by decide)

/-- C9: `AudioCache::set` deadlocks (modelled as `none`) whenever the insert
pushes the map over `max_entries` = 100, because `cleanup_oldest_entries`
calls `save_cache_index`, which re-acquires the cache mutex already held by
`set`; one entry below the bound the same call returns. -/
theorem c9_audio_set_deadlock :
    AudioCache.set id ["q"] audioFullState "x" "q" 200 = none ∧
    (AudioCache.set id ["q"] audioState99 "x" "q" 200).isSome ∧
    audioFullState.length = AudioCache.maxEntries :=
  ⟨by decide, by decide, by decide⟩

set_option maxRecDepth 8192 in
/-- C3: after every `TranslationCache::set` on a state within the 1000-entry
bound the state is still within the bound; the corresponding claim for
`AudioCache` fails because a `set` that exceeds its bound deadlocks instead
of returning (second conjunct, at a concrete 120-entry state). -/
theorem c3_size_bound (st : TransState) (text lang : String) (enable : Bool)
    (t : String) (ka : Option String) (now : Int)
    (h : st.length ≤ TranslationCache.maxCacheSize) :
    (TranslationCache.set st text lang enable t ka now).length
        ≤ TranslationCache.maxCacheSize ∧
    AudioCache.set id ["q"] audioState120 "x" "q" 200 = none := by
  refine ⟨?_, by decide⟩
  simp only [TranslationCache.set]
  have hle := mapInsert_length_le st (TranslationCache.generate_key text lang enable)
    ⟨t, ka, now⟩
  set cache := mapInsert st (TranslationCache.generate_key text lang enable)
    (⟨t, ka, now⟩ : CacheEntry) with hcache
  by_cases hover : cache.length > TranslationCache.maxCacheSize
  · rw [if_pos hover]
    have hperm := List.perm_insertionSort TranslationCache.tsLe cache
    have hslen : (List.insertionSort TranslationCache.tsLe cache).length = cache.length :=
      hperm.length_eq
    cases hsorted : List.insertionSort TranslationCache.tsLe cache with
    | nil => rw [hsorted] at hslen; simp at hslen; omega
    | cons s0 srest =>
      have hmem : s0 ∈ cache := hperm.subset (by rw [hsorted]; simp)
      have hfst : s0.1 ∈ cache.map Prod.fst := List.mem_map_of_mem Prod.fst hmem
      have hrem := mapRemove_length_of_mem hfst
      have htr : (List.take TranslationCache.cleanupSize (s0 :: srest)).map Prod.fst
          = s0.1 :: (List.take 99 srest).map Prod.fst := by
        rw [show TranslationCache.cleanupSize = 99 + 1 from rfl, List.take_succ_cons,
          List.map_cons]
      rw [htr, List.foldl_cons]
      exact le_trans (foldl_mapRemove_length_le _ _) (by omega)
  · rw [if_neg hover]
    omega

/-- Witness for C3 at the empty translation cache. -/
theorem c3_witness :
    (TranslationCache.set [] "a" "L" false "t" none 0).length
        ≤ TranslationCache.maxCacheSize ∧
    AudioCache.set id ["q"] audioState120 "x" "q" 200 = none :=
  c3_size_bound [] "a" "L" false "t" none 0 (by decide)

/-- C4: on the exact text from the specification, parsing with keyword
analysis enabled returns translation `Hola` and terminology `- X: Y`; and
any response containing neither section marker is returned whole as the
translation, with no terminology. -/
theorem c4_section_split :
    parse_translation_and_keywords
        ("...[Translation]\nHola\n\n[Terminology]\n- X: Y\n".data) true
      = some ("Hola".data, some ("- X: Y".data)) ∧
    ∀ response : List Char, containsSub response transMarker = false →
      containsSub response termMarker = false →
      parse_translation_and_keywords response true = some (response, none) := by
  refine ⟨by decide, ?_⟩
  intro response h1 _h2
  unfold parse_translation_and_keywords
  simp [h1]

/-- Witness for C4 on a marker-free response. -/
theorem c4_witness :
    parse_translation_and_keywords ("abc".data) true = some ("abc".data, none) :=
  c4_section_split.2 ("abc".data) (by decide) (by decide)

/-- C8: the same SSE body delivered whole yields both deltas, but split into
two read events in the middle of the second `data: ` line it loses that
delta: the cleared buffer drops the partial trailing line. -/
theorem c8_split_frame_dropped :
    ApiClient.stream_chat testParse
        [Except.ok "data: p1\ndata: p2\ndata: [DONE]\n".data]
      = [Except.ok "A", Except.ok "B", Except.ok ""] ∧
    ApiClient.stream_chat testParse
        [Except.ok "data: p1\nda".data, Except.ok "ta: p2\ndata: [DONE]\n".data]
      = [Except.ok "A", Except.ok ""] :=
  ⟨by decide, by decide⟩

/-- C10 fails on the code: with `[Terminology]` occurring before
`[Translation]` the slice range start exceeds its end and the Rust function
panics (modelled as `none`). -/
theorem c10_counterexample :
    parse_translation_and_keywords ("[Terminology] A [Translation] B".data) true = none := by
  decide

/-- C10 amended: `parse_translation_and_keywords` returns normally whenever
the first `[Translation]` occurrence ends no later than the first
`[Terminology]` occurrence begins (in particular always when keyword
analysis is disabled or a marker is missing); in the remaining case the
slice panics. -/
theorem c10_no_panic (response : List Char) (enable : Bool)
    (h : ∀ i j, findSub transMarker response = some i →
        findSub termMarker response = some j → i + transMarker.length ≤ j) :
    (parse_translation_and_keywords response enable).isSome := by
  unfold parse_translation_and_keywords
  cases enable with
  | false => simp
  | true =>
    simp only [Bool.not_true, Bool.false_eq_true, if_false]
    split
    · cases hf1 : findSub transMarker response with
      | none => simp
      | some i =>
        cases hf2 : findSub termMarker response with
        | none => simp
        | some j =>
          have hcond := h i j hf1 hf2
          simp only [hcond, if_true]
          split <;> simp
    · simp

/-- Witness for C10 on a well-ordered response. -/
theorem c10_witness :
    (parse_translation_and_keywords ("[Translation] A [Terminology] B".data) true).isSome :=
  c10_no_panic _ true (by
    intro i j hi hj
    have h1 : findSub transMarker ("[Translation] A [Terminology] B".data) = some 0 := by
      decide
    have h2 : findSub termMarker ("[Translation] A [Terminology] B".data) = some 16 := by
      decide
    rw [h1] at hi
    rw [h2] at hj
    cases hi
    cases hj
    decide)

/-- C2 fails on the code: with the cancel flag set from the start the UI
loop reports only the cancellation, yet the detached translator task still
writes the translation cache for the call key once the stream completes. -/
theorem c2_counterexample :
    TranslateApp.ui_loop true (fun _ => true) 0 [Except.ok "Hi", Except.ok ""]
      = [UiMessage.translationCancelled] ∧
    TranslationCache.get [] "T" "L" false = none ∧
    TranslationCache.get
        (Translator.translator_task [Except.ok "Hi", Except.ok ""] [] "T" "L" false 7).2
        "T" "L" false = some ("Hi", none) :=
  ⟨by decide, by decide, by decide⟩

/-! ### Stream parsing lemmas -/

theorem rustLinesAux_append_newline (a : List Char) :
    ∀ (acc rest : List Char), '\n' ∉ a →
      rustLinesAux acc (a ++ '\n' :: rest)
        = stripCR (acc.reverse ++ a) :: rustLinesAux [] rest := by
  induction a with
  | nil =>
    intro acc rest _
    simp [rustLinesAux]
  | cons c a ih =>
    intro acc rest h
    have hc : c ≠ '\n' := fun hc => h (by simp [hc])
    have step : rustLinesAux acc ((c :: a) ++ '\n' :: rest)
        = rustLinesAux (c :: acc) (a ++ '\n' :: rest) := by
      rw [List.cons_append,
        show rustLinesAux acc (c :: (a ++ '\n' :: rest))
            = if c = '\n' then stripCR acc.reverse :: rustLinesAux [] (a ++ '\n' :: rest)
              else rustLinesAux (c :: acc) (a ++ '\n' :: rest) from rfl,
        if_neg hc]
    rw [step, ih (c :: acc) rest (fun hm => h (by simp [hm]))]
    simp [List.append_assoc]

theorem stripCR_eq_self {l : List Char} (h : l.getLast? ≠ some '\r') :
    stripCR l = l := by
  simp [stripCR, h]

theorem dataTag_line_getLast {p : List Char} (h : '\r' ∉ p) :
    (dataTag ++ p).getLast? ≠ some '\r' := by
  rw [← List.head?_reverse, List.reverse_append]
  cases hp : p.reverse with
  | nil => decide
  | cons c t =>
    intro hcontra
    simp only [List.cons_append, List.head?_cons, Option.some.injEq] at hcontra
    apply h
    have hmem : c ∈ p.reverse := by rw [hp]; exact List.mem_cons_self c t
    rw [hcontra] at hmem
    exact List.mem_reverse.mp hmem

theorem rustLines_encodeEvent : ∀ (ps : List (List Char)),
    (∀ p ∈ ps, '\n' ∉ p ∧ '\r' ∉ p) →
    rustLines (encodeEvent ps) = ps.map (fun p => dataTag ++ p) := by
  intro ps
  induction ps with
  | nil => intro _; rfl
  | cons p ps ih =>
    intro h
    have hp := h p (by simp)
    have hnl : '\n' ∉ dataTag ++ p := by
      intro hm
      rcases List.mem_append.mp hm with hm | hm
      · simp [dataTag] at hm
      · exact hp.1 hm
    unfold encodeEvent rustLines
    rw [List.map_cons, List.flatten_cons,
      show dataTag ++ p ++ ['\n'] ++ (ps.map (fun q => dataTag ++ q ++ ['\n'])).flatten
          = (dataTag ++ p) ++ '\n' :: (ps.map (fun q => dataTag ++ q ++ ['\n'])).flatten by
        simp [List.append_assoc],
      rustLinesAux_append_newline _ _ _ hnl]
    simp only [List.reverse_nil, List.nil_append, List.map_cons]
    rw [stripCR_eq_self (dataTag_line_getLast hp.2)]
    congr 1
    exact ih (fun q hq => h q (by simp [hq]))

theorem payloadEmits_cases (parse : List Char → Option StreamChunk) (p : List Char) :
    payloadEmits parse p = [] ∨ ∃ c, payloadEmits parse p = [c] := by
  cases hp : parse p with
  | none => exact Or.inl (by simp [payloadEmits, hp])
  | some chunk =>
    cases hc : chunk.choices.head? with
    | none => exact Or.inl (by simp [payloadEmits, hp, hc])
    | some choice =>
      cases hd : choice.delta.content with
      | none => exact Or.inl (by simp [payloadEmits, hp, hc, hd])
      | some c => exact Or.inr ⟨c, by simp [payloadEmits, hp, hc, hd]⟩

theorem lineAction_dataTag (parse : List Char → Option StreamChunk) (p : List Char)
    (h : trimChars p ≠ doneChars) :
    ApiClient.lineAction parse (dataTag ++ p)
      = (match payloadEmits parse p with
         | [c] => LineAction.emit c
         | _ => LineAction.skip) := by
  have hstrip : stripData (dataTag ++ p) = some p := rfl
  cases hp : parse p with
  | none => simp [ApiClient.lineAction, payloadEmits, hstrip, h, hp]
  | some chunk =>
    cases hc : chunk.choices.head? with
    | none => simp [ApiClient.lineAction, payloadEmits, hstrip, h, hp, hc]
    | some choice =>
      cases hd : choice.delta.content with
      | none => simp [ApiClient.lineAction, payloadEmits, hstrip, h, hp, hc, hd]
      | some c => simp [ApiClient.lineAction, payloadEmits, hstrip, h, hp, hc, hd]

theorem runLines_valid (parse : List Char → Option StreamChunk) :
    ∀ (ps : List (List Char)), (∀ p ∈ ps, trimChars p ≠ doneChars) →
      ApiClient.runLines parse (ps.map (fun p => dataTag ++ p))
        = ((ps.map (payloadEmits parse)).flatten, false) := by
  intro ps
  induction ps with
  | nil => intro _; rfl
  | cons p ps ih =>
    intro h
    have hp := h p (by simp)
    cases ps with
    | nil =>
      simp only [List.map_cons, List.map_nil]
      unfold ApiClient.runLines
      rw [show (stripData (dataTag ++ p)).isNone = false from rfl]
      simp only [Bool.false_eq_true, if_false]
      rw [lineAction_dataTag parse p hp]
      rcases payloadEmits_cases parse p with he | ⟨c, he⟩ <;> simp [he]
    | cons q ps' =>
      simp only [List.map_cons]
      have hstep :
          ApiClient.runLines parse
              ((dataTag ++ p) :: (dataTag ++ q) :: ps'.map (fun r => dataTag ++ r))
            = (match ApiClient.lineAction parse (dataTag ++ p) with
               | .done => ([""], true)
               | .emit c =>
                 match ApiClient.runLines parse
                     ((dataTag ++ q) :: ps'.map (fun r => dataTag ++ r)) with
                 | (outs, d) => (c :: outs, d)
               | .skip =>
                 ApiClient.runLines parse
                   ((dataTag ++ q) :: ps'.map (fun r => dataTag ++ r))) := rfl
      rw [hstep, lineAction_dataTag parse p hp]
      have ihq := ih (fun r hr => h r (by simp [hr]))
      simp only [List.map_cons] at ihq
      rcases payloadEmits_cases parse p with he | ⟨c, he⟩ <;> simp [he, ihq]

theorem stream_loop_ok_step (parse : List Char → Option StreamChunk)
    (chunk : List Char) (rest : List (Except String (List Char))) (buffer : List Char) :
    ApiClient.stream_loop parse (Except.ok chunk :: rest) buffer
      = (match ApiClient.runLines parse (rustLines (buffer ++ chunk)) with
         | (outs, done) =>
           if done then outs.map Except.ok
           else outs.map Except.ok ++ ApiClient.stream_loop parse rest []) := rfl

/-- Core stream theorem: over read events made of complete `data: ` lines
followed by one `data: [DONE]` event, the loop emits exactly the per-payload
contents in order, then one terminal empty string. -/
theorem stream_ok_events (parse : List Char → Option StreamChunk) :
    ∀ (evs : List (List (List Char))),
      (∀ p ∈ evs.flatten, '\n' ∉ p ∧ '\r' ∉ p ∧ trimChars p ≠ doneChars) →
      ApiClient.stream_chat parse
          ((evs.map fun ev => Except.ok (encodeEvent ev)) ++ [Except.ok doneEvent])
        = ((evs.flatten.map (payloadEmits parse)).flatten).map Except.ok
            ++ [Except.ok ""] := by
  intro evs
  unfold ApiClient.stream_chat
  induction evs with
  | nil => intro _; rfl
  | cons ev evs ih =>
    intro h
    have hev : ∀ p ∈ ev, '\n' ∉ p ∧ '\r' ∉ p :=
      fun p hp => ⟨(h p (by simp [hp])).1, (h p (by simp [hp])).2.1⟩
    have hdone : ∀ p ∈ ev, trimChars p ≠ doneChars :=
      fun p hp => (h p (by simp [hp])).2.2
    have htail : ∀ p ∈ evs.flatten, '\n' ∉ p ∧ '\r' ∉ p ∧ trimChars p ≠ doneChars :=
      fun p hp => h p (by simp [hp])
    simp only [List.map_cons, List.cons_append]
    rw [stream_loop_ok_step, List.nil_append, rustLines_encodeEvent ev hev,
      runLines_valid parse ev hdone]
    simp only [Bool.false_eq_true, if_false]
    rw [ih htail]
    simp [List.flatten_append, List.append_assoc]

theorem flatten_map_singleton {α β : Type} : ∀ (l : List α) (f : α → List β) (g : α → β),
    (∀ x ∈ l, f x = [g x]) → (l.map f).flatten = l.map g := by
  intro l f g
  induction l with
  | nil => intro _; rfl
  | cons a t ih =>
    intro h
    simp only [List.map_cons, List.flatten_cons, h a (by simp)]
    rw [ih (fun x hx => h x (by simp [hx]))]
    rfl

/-- C1: for every synthetic sequence of read events consisting of complete
`data: ` lines (in any grouping) whose payloads all decode to a chunk
carrying a content fragment, followed by a `data: [DONE]` event, the channel
yields exactly one success value per fragment in arrival order, then exactly
one terminal empty-string success value, and then closes. -/
theorem c1_stream_emits_fragments (parse : List Char → Option StreamChunk)
    (evs : List (List (List Char))) (content : List Char → String)
    (h : ∀ p ∈ evs.flatten, '\n' ∉ p ∧ '\r' ∉ p ∧ trimChars p ≠ doneChars ∧
        payloadEmits parse p = [content p]) :
    ApiClient.stream_chat parse
        ((evs.map fun ev => Except.ok (encodeEvent ev)) ++ [Except.ok doneEvent])
      = evs.flatten.map (fun p => Except.ok (content p)) ++ [Except.ok ""] := by
  rw [stream_ok_events parse evs
      (fun p hp => ⟨(h p hp).1, (h p hp).2.1, (h p hp).2.2.1⟩),
    flatten_map_singleton evs.flatten (payloadEmits parse) content
      (fun p hp => (h p hp).2.2.2),
    List.map_map]
  rfl

/-- Witness for C1: two frames in two read events, decoded by `testParse`. -/
theorem c1_witness :
    ApiClient.stream_chat testParse
        ((([["p1".data], ["p2".data]] : List (List (List Char))).map
            fun ev => Except.ok (encodeEvent ev)) ++ [Except.ok doneEvent])
      = ([["p1".data], ["p2".data]] : List (List (List Char))).flatten.map
          (fun p => Except.ok (if p = "p1".data then "A" else "B"))
          ++ [Except.ok ""] :=
  c1_stream_emits_fragments testParse [["p1".data], ["p2".data]]
    (fun p => if p = "p1".data then "A" else "B") (by decide)

/-- C6: one undecodable `data: ` line among well-formed frames does not
abort the stream: the fragments of every valid frame before and after it are
still emitted, in order, with no error value for the malformed line. -/
theorem c6_malformed_skipped (parse : List Char → Option StreamChunk)
    (ps1 ps2 : List (List Char)) (bad : List Char) (content : List Char → String)
    (hbad : parse bad = none)
    (hbadc : '\n' ∉ bad ∧ '\r' ∉ bad ∧ trimChars bad ≠ doneChars)
    (h : ∀ p ∈ ps1 ++ ps2, '\n' ∉ p ∧ '\r' ∉ p ∧ trimChars p ≠ doneChars ∧
        payloadEmits parse p = [content p]) :
    ApiClient.stream_chat parse
        (((ps1 ++ [bad] ++ ps2).map fun p => Except.ok (encodeEvent [p]))
          ++ [Except.ok doneEvent])
      = (ps1 ++ ps2).map (fun p => Except.ok (content p)) ++ [Except.ok ""] := by
  have hflat : ((ps1 ++ [bad] ++ ps2).map (fun p => [p])).flatten
      = ps1 ++ [bad] ++ ps2 :=
    (flatten_map_singleton _ (fun p => [p]) id (fun _ _ => rfl)).trans
      (List.map_id _)
  have hforall : ∀ p ∈ ps1 ++ [bad] ++ ps2,
      '\n' ∉ p ∧ '\r' ∉ p ∧ trimChars p ≠ doneChars := by
    intro p hp
    rcases List.mem_append.mp hp with hp1 | hp1
    · rcases List.mem_append.mp hp1 with hp2 | hp2
      · exact ⟨(h p (by simp [hp2])).1, (h p (by simp [hp2])).2.1,
          (h p (by simp [hp2])).2.2.1⟩
      · rw [List.mem_singleton.mp hp2]
        exact hbadc
    · exact ⟨(h p (by simp [hp1])).1, (h p (by simp [hp1])).2.1,
        (h p (by simp [hp1])).2.2.1⟩
  have hforall' : ∀ p ∈ ((ps1 ++ [bad] ++ ps2).map (fun p => [p])).flatten,
      '\n' ∉ p ∧ '\r' ∉ p ∧ trimChars p ≠ doneChars := by
    rw [hflat]; exact hforall
  have hmain := stream_ok_events parse ((ps1 ++ [bad] ++ ps2).map (fun p => [p])) hforall'
  rw [hflat] at hmain
  have hmaps : ((ps1 ++ [bad] ++ ps2).map
        fun p => (Except.ok (encodeEvent [p]) : Except String (List Char)))
      = (((ps1 ++ [bad] ++ ps2).map (fun p => [p])).map
          fun ev => (Except.ok (encodeEvent ev) : Except String (List Char))) := by
    rw [List.map_map]
    rfl
  rw [hmaps, hmain]
  have hbademit : payloadEmits parse bad = [] := by simp [payloadEmits, hbad]
  have hps1 : (ps1.map (payloadEmits parse)).flatten = ps1.map content :=
    flatten_map_singleton ps1 _ content (fun p hp => (h p (by simp [hp])).2.2.2)
  have hps2 : (ps2.map (payloadEmits parse)).flatten = ps2.map content :=
    flatten_map_singleton ps2 _ content (fun p hp => (h p (by simp [hp])).2.2.2)
  simp only [List.map_append, List.flatten_append, List.map_cons, List.map_nil,
    List.flatten_cons, List.flatten_nil, hbademit, hps1, hps2, List.nil_append,
    List.append_nil, List.append_assoc, List.map_map]
  rfl

/-- Witness for C6: a malformed payload between two valid frames. -/
theorem c6_witness :
    ApiClient.stream_chat testParse
        ((["p1".data, "xx".data, "p2".data].map
            fun p => Except.ok (encodeEvent [p])) ++ [Except.ok doneEvent])
      = (["p1".data, "p2".data] : List (List Char)).map
          (fun p => Except.ok (if p = "p1".data then "A" else "B"))
          ++ [Except.ok ""] :=
  c6_malformed_skipped testParse ["p1".data] ["p2".data] "xx".data
    (fun p => if p = "p1".data then "A" else "B") (by decide) (by decide) (by decide)

/-- C2 amended: when the cancel flag is set and the select picks the timer
branch, the UI loop reports exactly one cancellation signal; independently,
the translator task writes the parsed accumulated response into the cache
for the call key, whatever the flag — the write is not prevented. -/
theorem c2_cache_written_despite_cancel (sched : Nat → Bool) (i : Nat)
    (msgs : List (Except TranslationError String)) (st : TransState)
    (text target_language : String) (enable_keyword_analysis : Bool) (now : Int)
    (t : List Char) (ka : Option (List Char))
    (hsched : sched i = true)
    (hlen : st.length < TranslationCache.maxCacheSize)
    (hfull : Translator.full_response msgs ≠ "")
    (hparse : parse_translation_and_keywords (Translator.full_response msgs).data
        enable_keyword_analysis = some (t, ka)) :
    TranslateApp.ui_loop true sched i msgs = [UiMessage.translationCancelled] ∧
    TranslationCache.get
        (Translator.translator_task msgs st text target_language
          enable_keyword_analysis now).2
        text target_language enable_keyword_analysis
      = some (String.mk t, ka.map String.mk) := by
  constructor
  · unfold TranslateApp.ui_loop
    simp [hsched]
  · unfold Translator.translator_task
    simp only [hfull, if_true, ne_eq, not_false_iff, ite_true, hparse]
    exact trans_get_set_small st text target_language enable_keyword_analysis
      (String.mk t) (ka.map String.mk) now hlen

/-- Witness for C2 amended, with the flag set from the start of a two-chunk
stream and an empty cache. -/
theorem c2_witness :
    TranslateApp.ui_loop true (fun _ => true) 0 [Except.ok "Hola", Except.ok ""]
      = [UiMessage.translationCancelled] ∧
    TranslationCache.get
        (Translator.translator_task [Except.ok "Hola", Except.ok ""] [] "S" "L" false 1).2
        "S" "L" false = some (String.mk "Hola".data, Option.none.map String.mk) :=
  c2_cache_written_despite_cancel (fun _ => true) 0
    [Except.ok "Hola", Except.ok ""] [] "S" "L" false 1 "Hola".data none
    (by decide) (by decide) (by decide) (by decide)

/-! ### Eviction analysis for the translation cache (claim C7) -/

theorem insertionSort_append_min (l : List (String × CacheEntry))
    (m : String × CacheEntry) (h : ∀ kv ∈ l, ¬ TranslationCache.tsLe kv m) :
    List.insertionSort TranslationCache.tsLe (l ++ [m])
      = m :: List.insertionSort TranslationCache.tsLe l := by
  induction l with
  | nil => simp
  | cons a t ih =>
    have ha : ¬ TranslationCache.tsLe a m := h a (by simp)
    rw [show (a :: t) ++ [m] = a :: (t ++ [m]) from rfl,
      show List.insertionSort TranslationCache.tsLe (a :: (t ++ [m]))
          = List.orderedInsert TranslationCache.tsLe a
              (List.insertionSort TranslationCache.tsLe (t ++ [m])) from rfl,
      ih (fun kv hkv => h kv (by simp [hkv]))]
    simp only [List.orderedInsert, if_neg ha]
    rfl

theorem tkey_ne (i : Nat) : tkey i ≠ TranslationCache.generate_key "x" "L" false := by
  intro hcontra
  have h2 : (tkey i).data.head?
      = (TranslationCache.generate_key "x" "L" false).data.head? :=
    congrArg (fun s => s.data.head?) hcontra
  rw [show (TranslationCache.generate_key "x" "L" false).data.head? = some 'L'
      from rfl] at h2
  rw [show (tkey i).data.head? = some 'k' from rfl] at h2
  exact absurd (Option.some.inj h2) (by decide)

theorem transFullState_keys :
    ∀ kv ∈ transFullState, kv.1 ≠ TranslationCache.generate_key "x" "L" false := by
  intro kv hkv
  rcases List.mem_map.mp hkv with ⟨i, _, rfl⟩
  exact tkey_ne i

theorem transFullState_ts : ∀ kv ∈ transFullState, kv.2.timestamp = 1 := by
  intro kv hkv
  rcases List.mem_map.mp hkv with ⟨i, _, rfl⟩
  rfl

theorem transFullState_length : transFullState.length = 1000 := by
  simp [transFullState]

/-- C7 fails on the code: on a full cache whose 1000 entries all carry a
newer timestamp than the clock supplies for the insert (a state reachable by
re-loading the persisted cache file after the clock stepped back), the
insert overflows the bound, the eviction sorts the new entry first, and the
new entry itself is among the 100 evicted: the immediate `get` misses. -/
theorem c7_counterexample :
    TranslationCache.get
        (TranslationCache.set transFullState "x" "L" false "tx" none 0)
        "x" "L" false = none := by
  have hkeys := transFullState_keys
  simp only [TranslationCache.set]
  set key := TranslationCache.generate_key "x" "L" false with hkeydef
  set e : CacheEntry := ⟨"tx", none, 0⟩ with hedef
  have hins : mapInsert transFullState key e = transFullState ++ [(key, e)] :=
    mapInsert_of_forall_ne e hkeys
  rw [hins]
  have hlen : (transFullState ++ [(key, e)]).length = 1001 := by
    rw [List.length_append, transFullState_length]
    rfl
  rw [if_pos (by rw [hlen]; decide)]
  have hmin : ∀ kv ∈ transFullState, ¬ TranslationCache.tsLe kv (key, e) := by
    intro kv hkv
    have := transFullState_ts kv hkv
    simp [TranslationCache.tsLe, this, hedef]
  rw [insertionSort_append_min transFullState (key, e) hmin]
  rw [show TranslationCache.cleanupSize = 99 + 1 from rfl, List.take_succ_cons,
    List.map_cons, List.foldl_cons]
  rw [mapRemove_append_of_forall_ne e hkeys]
  have hnone : mapGet transFullState key = none := mapGet_eq_none hkeys
  have hfinal := foldl_mapRemove_none
    ((List.take 99 (List.insertionSort TranslationCache.tsLe transFullState)).map Prod.fst)
    hnone
  unfold TranslationCache.get
  rw [← hkeydef, hfinal]

/-- C7 amended: `set` followed immediately by `get` at the same key returns
the stored pair, provided the insert either stays within the 1000-entry
bound, or (for a well-formed map state) the new entry carries a strictly
newer timestamp than every other entry, so that the batched eviction cannot
remove it.  When the new entry is among the oldest 100 by timestamp at the
moment the bound is exceeded it is itself evicted and the `get` misses. -/
theorem c7_roundtrip (st : TransState) (text lang : String) (enable : Bool)
    (t : String) (ka : Option String) (now : Int)
    (h : st.length < TranslationCache.maxCacheSize ∨
        ((st.map Prod.fst).Nodup ∧ ∀ kv ∈ st,
          kv.1 ≠ TranslationCache.generate_key text lang enable →
            kv.2.timestamp < now)) :
    TranslationCache.get (TranslationCache.set st text lang enable t ka now)
      text lang enable = some (t, ka) := by
  rcases h with h | ⟨hnodup, hts⟩
  · exact trans_get_set_small st text lang enable t ka now h
  · simp only [TranslationCache.set]
    set key := TranslationCache.generate_key text lang enable with hkeydef
    set e : CacheEntry := ⟨t, ka, now⟩ with hedef
    set st1 := mapInsert st key e with hst1
    have hget1 : mapGet st1 key = some e := mapGet_mapInsert_self st key e
    have hnodup1 : (st1.map Prod.fst).Nodup := mapInsert_nodup_keys key e hnodup
    by_cases hover : st1.length > TranslationCache.maxCacheSize
    · rw [if_pos hover]
      set S := List.insertionSort TranslationCache.tsLe st1 with hS
      have hperm : S.Perm st1 := List.perm_insertionSort TranslationCache.tsLe st1
      have hsort : List.Sorted TranslationCache.tsLe S :=
        List.sorted_insertionSort TranslationCache.tsLe st1
      have hnotin : key ∉ (S.take TranslationCache.cleanupSize).map Prod.fst := by
        intro hin
        rcases List.mem_map.mp hin with ⟨q, hqtake, hqfst⟩
        have hqS : q ∈ S := List.mem_of_mem_take hqtake
        have hqst1 : q ∈ st1 := hperm.subset hqS
        have hqpair : (key, q.2) ∈ st1 := by
          rw [← hqfst]
          exact hqst1
        have hq2 : q.2 = e :=
          nodup_keys_unique hnodup1 hqpair (mapGet_some_mem hget1)
        have hqe : q = (key, e) := by
          rw [show q = (q.1, q.2) from rfl, hqfst, hq2]
        have hlenS : S.length = st1.length := hperm.length_eq
        have hdroplen : 0 < (S.drop TranslationCache.cleanupSize).length := by
          rw [List.length_drop, hlenS]
          have : TranslationCache.cleanupSize = 100 := rfl
          have hmax : TranslationCache.maxCacheSize = 1000 := rfl
          omega
        obtain ⟨y, hy⟩ := List.exists_mem_of_length_pos hdroplen
        have hsplit := List.take_append_drop TranslationCache.cleanupSize S
        have hpw : List.Pairwise TranslationCache.tsLe
            (S.take TranslationCache.cleanupSize ++ S.drop TranslationCache.cleanupSize) := by
          rw [hsplit]
          exact hsort
        have hrel : TranslationCache.tsLe (key, e) y :=
          (List.pairwise_append.mp hpw).2.2 (key, e) (hqe ▸ hqtake) y hy
        have hyS : y ∈ S := List.mem_of_mem_drop hy
        have hyst1 : y ∈ st1 := hperm.subset hyS
        have hykey : y.1 ≠ key := by
          intro hyk
          have hnodupS : (S.map Prod.fst).Nodup :=
            ((hperm.map Prod.fst).nodup_iff).mpr (by exact hnodup1)
          have hmapsplit : (S.map Prod.fst)
              = (S.take TranslationCache.cleanupSize).map Prod.fst
                ++ (S.drop TranslationCache.cleanupSize).map Prod.fst := by
            rw [← List.map_append, hsplit]
          rw [hmapsplit] at hnodupS
          have hdisj := (List.nodup_append.mp hnodupS).2.2
          exact hdisj hin (by
            rw [← hyk]
            exact List.mem_map_of_mem Prod.fst hy)
        have hymem : y.2.timestamp < now := by
          rcases mem_mapInsert (hst1 ▸ hyst1) with hcase | hcase
          · exact absurd (by rw [hcase]) hykey
          · exact hts y hcase hykey
        have : now ≤ y.2.timestamp := hrel
        omega
      have hall : ∀ k' ∈ (S.take TranslationCache.cleanupSize).map Prod.fst,
          k' ≠ key := fun k' hk' hcontra => hnotin (hcontra ▸ hk')
      unfold TranslationCache.get
      rw [← hkeydef,
        foldl_mapRemove_get_of_not_mem _ hall, hget1]
    · rw [if_neg hover]
      unfold TranslationCache.get
      rw [← hkeydef, hget1]

/-- Witness for C7 amended, exercising the strictly-newest disjunct on a
one-entry cache. -/
theorem c7_witness :
    TranslationCache.get
        (TranslationCache.set [("k", ⟨"old", none, 1⟩)] "x" "L" false "tx" none 5)
        "x" "L" false = some ("tx", none) :=
  c7_roundtrip [("k", ⟨"old", none, 1⟩)] "x" "L" false "tx" none 5
    (Or.inr ⟨by decide, by decide⟩)
